import Mathlib

/-!
Shallow embedding of the mini-bitcask-rs storage engine
(src/mini-bitcask-rs/src/bitcask.rs, src/mini-bitcask-rs/src/log.rs).

The on-disk log file is a list of bytes (`Bytes`); the in-memory key
directory (`KeyDir`, Rust `BTreeMap<Vec<u8>, (u64, u32)>`) is an
association list sorted strictly by unsigned lexicographic byte order,
which is exactly the ordered-map abstraction of `BTreeMap`.

Machine integers are modelled as `Nat` with an explicit `% 4294967296`
(2^32) at every `as u32` / `as i32` cast and at the one u32 addition of
the source.  `4294967295` is the two's-complement byte pattern of the
`-1i32` tombstone marker, `2147483648` (2^31) is the threshold above
which a 4-byte big-endian field is negative as an `i32`.
-/

namespace Bitcask

abbrev Bytes := List Nat

/-- Unsigned lexicographic order on byte strings: the `Ord` instance of
Rust's `Vec<u8>` used by the `BTreeMap` key directory.  A strict prefix
is smaller than the longer string. -/
def lexLt : Bytes → Bytes → Bool
  | _, [] => false
  | [], _ :: _ => true
  | a :: as, b :: bs => if a < b then true else if b < a then false else lexLt as bs

/-- `u32::to_be_bytes` (and, byte-for-byte, `i32::to_be_bytes` of the
same two's-complement word): big-endian 4-byte encoding of `n % 2^32`. -/
def u32be (n : Nat) : Bytes :=
  [n / 16777216 % 256, n / 65536 % 256, n / 256 % 256, n % 256]

/-- `u32::from_be_bytes` on a 4-byte buffer. -/
def u32_of_be : Bytes → Nat
  | [b0, b1, b2, b3] => ((b0 * 256 + b1) * 256 + b2) * 256 + b3
  | _ => 0

/-- The bytes of `file` from offset `pos`, at most `len` of them. -/
def sliceF (f : Bytes) (pos len : Nat) : Bytes := (f.drop pos).take len

/-- A `read_exact` into a zero-initialised buffer of length `len` whose
error return is discarded (as `load_index` does): the available bytes,
zero-padded to `len`.  (Rust leaves the buffer contents unspecified on a
short read; the zero padding matches the freshly zeroed key buffer
`vec![0; key_len]`.  No theorem below depends on the padding.) -/
def readPadded (f : Bytes) (pos len : Nat) : Bytes :=
  sliceF f pos len ++ List.replicate (len - (sliceF f pos len).length) 0

/-- `Log::read_value`: seek to `value_pos` and `read_exact` a buffer of
`value_len` bytes; `none` is the `Err` of a short read. -/
def read_value (f : Bytes) (value_pos value_len : Nat) : Option Bytes :=
  if value_pos + value_len ≤ f.length then some (sliceF f value_pos value_len) else none

/-- In-memory key directory: `BTreeMap<Vec<u8>, (u64, u32)>` as a
sorted association list from key to `(value_pos, value_len)`. -/
abbrev KeyDir := List (Bytes × Nat × Nat)

/-- `BTreeMap::get`. -/
def kdLookup (k : Bytes) : KeyDir → Option (Nat × Nat)
  | [] => none
  | (k', v) :: rest => if k = k' then some v else kdLookup k rest

/-- `BTreeMap::insert` on the sorted-list representation: place the new
binding at its ordered position, replacing an equal key. -/
def kdInsert (k : Bytes) (v : Nat × Nat) : KeyDir → KeyDir
  | [] => [(k, v)]
  | (k', v') :: rest =>
    if lexLt k k' then (k, v) :: (k', v') :: rest
    else if k = k' then (k, v) :: rest
    else (k', v') :: kdInsert k v rest

/-- `BTreeMap::remove`. -/
def kdErase (k : Bytes) : KeyDir → KeyDir
  | [] => []
  | (k', v') :: rest => if k = k' then rest else (k', v') :: kdErase k rest

/-- The 4-byte `value_len_or_tombstone` field of `Log::write_entry`:
`value.map_or(-1, |v| v.len() as i32)`, then `to_be_bytes`.
`4294967295` is the byte pattern of `-1i32`. -/
def lenField : Option Bytes → Bytes
  | some v => u32be (v.length % 4294967296)
  | none => u32be 4294967295

/-- The byte string a single `Log::write_entry` call appends:
`| key size(4B) | value size(4B) | key | value |`. -/
def encRecord (k : Bytes) (v : Option Bytes) : Bytes :=
  u32be (k.length % 4294967296) ++ lenField v ++ k ++ v.getD []

/-- The u32 `len` returned by `Log::write_entry`:
`KEY_VAL_HEADER_LEN * 2 + key_len + value_len` in wrapping 32-bit
arithmetic (`key_len`/`value_len` are the `as u32` casts). -/
def entryLen (k : Bytes) (v : Option Bytes) : Nat :=
  (8 + k.length % 4294967296 + (v.getD []).length % 4294967296) % 4294967296

/-- `Log::write_entry`: seek to end (`offset` = current file length),
append the record, return `(new file, offset, len)`. -/
def write_entry (f : Bytes) (k : Bytes) (v : Option Bytes) : Bytes × Nat × Nat :=
  (f ++ encRecord k v, f.length, entryLen k v)

/-- `MiniBitcask`: the log file contents plus the key directory. -/
structure Store where
  file : Bytes
  keydir : KeyDir
deriving DecidableEq

/-- `MiniBitcask::get`: directory lookup, then one random-access
`read_value`.  The outer `Option` is the `Result` (`none` = `Err`). -/
def get (s : Store) (key : Bytes) : Option (Option Bytes) :=
  match kdLookup key s.keydir with
  | some (pos, len) => (read_value s.file pos len).map some
  | none => some none

/-- `MiniBitcask::set`: append the record and point the directory at the
just-written value: `(offset + len as u64 - value_len as u64, value_len)`.
(For records within the 32-bit field bounds `len ≥ value_len`, so the
u64 subtraction cannot wrap and `Nat` subtraction is exact.) -/
def set (s : Store) (key value : Bytes) : Store :=
  let r := write_entry s.file key (some value)
  { file := r.1,
    keydir := kdInsert key (r.2.1 + r.2.2 - value.length % 4294967296,
      value.length % 4294967296) s.keydir }

/-- `MiniBitcask::delete`: append a tombstone record, drop the key from
the directory.  (Both steps are infallible here: the append is modelled
as total, mirroring a non-failing filesystem.) -/
def delete (s : Store) (key : Bytes) : Store :=
  { file := (write_entry s.file key none).1, keydir := kdErase key s.keydir }

/-- A mutating operation of the public API. -/
inductive Op where
  | set (k v : Bytes)
  | del (k : Bytes)
deriving DecidableEq

def applyOp (s : Store) : Op → Store
  | .set k v => Bitcask.set s k v
  | .del k => Bitcask.delete s k

/-- A store freshly created on an empty (absent) file. -/
def emptyStore : Store := { file := [], keydir := [] }

def runFrom (s : Store) (ops : List Op) : Store := ops.foldl applyOp s

/-- The store after a sequence of `set`/`delete` calls on a fresh file. -/
def run (ops : List Op) : Store := runFrom emptyStore ops

/-- The recovery loop of `Log::load_index`, one iteration per record:
read the two 4-byte headers and the key (the source drops the `Result`
of each `read_exact`, hence `readPadded`), skip the value, and insert or
remove the key.  A 4-byte field is a tombstone iff it is negative as an
`i32`, i.e. iff its unsigned value is ≥ 2^31.  `fuel` only bounds the
iteration count for Lean's termination checker: every iteration advances
`pos` by at least 8, so `file.length` iterations are always enough and
the fuel-exhausted branch is never reached from `load_index`. -/
def loadLoop : Nat → Bytes → Nat → KeyDir → KeyDir
  | 0, _, _, kd => kd
  | fuel + 1, file, pos, kd =>
    if pos < file.length then
      let key_len := u32_of_be (readPadded file pos 4)
      let field := u32_of_be (readPadded file (pos + 4) 4)
      let value_pos := pos + 8 + key_len
      let key := readPadded file (pos + 8) key_len
      if field < 2147483648 then
        loadLoop fuel file (value_pos + field) (kdInsert key (value_pos, field) kd)
      else
        loadLoop fuel file value_pos (kdErase key kd)
    else kd

/-- `Log::load_index`: scan the whole file from offset 0 with an empty
directory.  (The only `?`-propagated calls inside the loop, `metadata`,
the initial `seek` and `seek_relative` with a non-negative offset,
cannot fail on a healthy filesystem, so the model is total.) -/
def load_index (file : Bytes) : KeyDir := loadLoop file.length file 0 []

/-- `std::ops::Bound<Vec<u8>>`. -/
inductive DBound where
  | included (b : Bytes)
  | excluded (b : Bytes)
  | unbounded
deriving DecidableEq

/-- Does key `k` lie above the start bound? -/
def loCheck : DBound → Bytes → Bool
  | .included a, k => !lexLt k a
  | .excluded a, k => lexLt a k
  | .unbounded, _ => true

/-- Does key `k` lie below the end bound? -/
def hiCheck : DBound → Bytes → Bool
  | .included b, k => !lexLt b k
  | .excluded b, k => lexLt k b
  | .unbounded, _ => true

/-- `BTreeMap::range` panics when the start bound exceeds the end bound,
or when they are equal and both excluded. -/
def rangeBad : DBound → DBound → Bool
  | .included a, .included b => lexLt b a
  | .included a, .excluded b => lexLt b a
  | .excluded a, .included b => lexLt b a
  | .excluded a, .excluded b => lexLt b a || a == b
  | _, _ => false

/-- `MiniBitcask::scan` driven to completion: the list of items the
`ScanIterator` yields in ascending key order (`next_back` walks the same
list from the back).  Each item pairs the key with the per-item
`read_value` result (`none` = that item's `Err`).  The `none` of the
outer `Option` is the `BTreeMap::range` panic. -/
def scan (s : Store) (lo hi : DBound) : Option (List (Bytes × Option Bytes)) :=
  if rangeBad lo hi then none
  else some ((s.keydir.filter (fun p => loCheck lo p.1 && hiCheck hi p.1)).map
    (fun p => (p.1, read_value s.file p.2.1 p.2.2)))

/-- The end-bound key of `MiniBitcask::scan_prefix`: `*last += 1` on the
last byte (wrapping u8 arithmetic, `0xFF` wraps to `0x00`); an empty
prefix is left unchanged. -/
def bumpLast : Bytes → Bytes
  | [] => []
  | [x] => [(x + 1) % 256]
  | x :: y :: rest => x :: bumpLast (y :: rest)

/-- `MiniBitcask::scan_prefix`:
`scan((Included(prefix), Excluded(bumpLast prefix)))`. -/
def scanPrefix (s : Store) (p : Bytes) : Option (List (Bytes × Option Bytes)) :=
  scan s (.included p) (.excluded (bumpLast p))

/-- The loop of `MiniBitcask::merge`: for each directory entry in key
order, read the value from the old log and `write_entry` it to the new
log, inserting `(offset + len - value_len, value_len)` (the entry's own
`value_len`) into the fresh directory.  `none` = a failed read. -/
def mergeLoop (old : Bytes) : List (Bytes × Nat × Nat) → Bytes → KeyDir →
    Option (Bytes × KeyDir)
  | [], f, kd => some (f, kd)
  | (k, pos, len) :: rest, f, kd =>
    match read_value old pos len with
    | none => none
    | some v =>
      let r := write_entry f k (some v)
      mergeLoop old rest r.1 (kdInsert k (r.2.1 + r.2.2 - len, len) kd)

/-- `MiniBitcask::merge`.  `sibling` is the pre-existing content of the
file at the merge path (`Log::new` opens it with `create(true)` but
without truncation, so a leftover from a failed merge is kept and
appended after); it is `[]` when that file is absent.  On success the
new file is renamed over the data file's path and both the log and the
directory are swapped in. -/
def merge (s : Store) (sibling : Bytes) : Option Store :=
  (mergeLoop s.file s.keydir sibling []).map (fun r => { file := r.1, keydir := r.2 })

/-- The filesystem outcomes `Log::new` encounters: recursive directory
creation, `OpenOptions::open`, and `try_lock_exclusive`. -/
structure FsEnv where
  createDirOk : Bool
  openOk : Bool
  lockOk : Bool
deriving DecidableEq

/-- Control flow of `Log::new`: `create_dir_all` and `open` are
`?`-propagated; the `Result` of `file.try_lock_exclusive()` is
discarded, so its outcome never influences the return value.
`some ()` = the `Ok(Self { path, file })` of a created log. -/
def logNew (env : FsEnv) : Option Unit :=
  if env.createDirOk then
    if env.openOk then
      some ()
    else none
  else none

/-! ### Derived forms used to state the claims -/

/-- The record a single operation appends. -/
def encOp : Op → Bytes
  | .set k v => encRecord k (some v)
  | .del k => encRecord k none

/-- The log file produced by a run of operations on a fresh store. -/
def encFile (ops : List Op) : Bytes := (ops.map encOp).flatten

/-- Key and value lengths within the 32-bit on-disk fields: up to the
spec's field-width limits (values must additionally fit the signed
field, else the length is written as a tombstone marker). -/
def opOk : Op → Bool
  | .set k v => decide (8 + k.length + v.length < 4294967296) &&
      decide (v.length < 2147483648)
  | .del k => decide (k.length < 4294967296)

/-- Directory evolution of a run, with the absolute file position
threaded through: a `set` of `k`,`v` at record offset `pos` binds `k` to
`(pos + 8 + |k|, |v|)`. -/
def dirRun (kd : KeyDir) (pos : Nat) : List Op → KeyDir
  | [] => kd
  | .set k v :: rest =>
      dirRun (kdInsert k (pos + 8 + k.length, v.length) kd) (pos + 8 + k.length + v.length) rest
  | .del k :: rest => dirRun (kdErase k kd) (pos + 8 + k.length) rest

/-- Does the operation touch key `k`? -/
def touches (k : Bytes) : Op → Bool
  | .set k' _ => k' == k
  | .del k' => k' == k

/-- Is the operation a `set` of key `k`? -/
def setsKey (k : Bytes) : Op → Bool
  | .set k' _ => k' == k
  | .del _ => false

/-- A directory entry that is healthy for file `f`: its value slice lies
inside the file and its record is within the 32-bit field bounds. -/
def entryOk (f : Bytes) (p : Bytes × Nat × Nat) : Prop :=
  p.2.1 + p.2.2 ≤ f.length ∧ 8 + p.1.length + p.2.2 < 4294967296

/-- Store invariant: the directory is sorted strictly ascending (as a
`BTreeMap` is) and every entry is healthy. -/
def Wf (s : Store) : Prop :=
  List.Pairwise (fun p q => lexLt p.1 q.1 = true) s.keydir ∧ ∀ p ∈ s.keydir, entryOk s.file p

instance (f : Bytes) (p : Bytes × Nat × Nat) : Decidable (entryOk f p) := by
  unfold entryOk; infer_instance

instance (s : Store) : Decidable (Wf s) := by
  unfold Wf; infer_instance

/-- The live `(key, value bytes)` pairs of a store, in directory order. -/
def livePairs (s : Store) : List (Bytes × Bytes) :=
  s.keydir.map (fun p => (p.1, sliceF s.file p.2.1 p.2.2))

/-- The compacted records `merge` writes for the given directory
entries: one non-tombstone record per live key, in key order. -/
def mergedFile (old : Bytes) : List (Bytes × Nat × Nat) → Bytes
  | [] => []
  | e :: rest => encRecord e.1 (some (sliceF old e.2.1 e.2.2)) ++ mergedFile old rest

/-- The directory `merge` rebuilds, with the absolute position in the
new file threaded through. -/
def mergedDir (old : Bytes) (pos : Nat) : List (Bytes × Nat × Nat) → KeyDir
  | [] => []
  | e :: rest => (e.1, (pos + 8 + e.1.length, e.2.2)) ::
      mergedDir old (pos + 8 + e.1.length + e.2.2) rest

/-! ### Byte- and slice-level lemmas -/

theorem u32be_length (n : Nat) : (u32be n).length = 4 := rfl

theorem u32_of_be_u32be (n : Nat) : u32_of_be (u32be n) = n % 4294967296 := by
  simp only [u32be, u32_of_be]
  omega

theorem drop_append_plus (a b : Bytes) (m : Nat) :
    (a ++ b).drop (a.length + m) = b.drop m := by
  rw [← List.drop_drop, List.drop_left]

theorem sliceF_append_plus (a b : Bytes) (m n : Nat) :
    sliceF (a ++ b) (a.length + m) n = sliceF b m n := by
  unfold sliceF
  rw [drop_append_plus]

theorem sliceF_append_zero (a b : Bytes) (n : Nat) :
    sliceF (a ++ b) a.length n = sliceF b 0 n := by
  have := sliceF_append_plus a b 0 n
  simpa using this

theorem sliceF_length (f : Bytes) (pos n : Nat) :
    (sliceF f pos n).length = min n (f.length - pos) := by
  simp [sliceF]

theorem sliceF_length_of_le (f : Bytes) (pos n : Nat) (h : pos + n ≤ f.length) :
    (sliceF f pos n).length = n := by
  rw [sliceF_length]
  omega

theorem readPadded_of_full (f : Bytes) (pos n : Nat) (h : (sliceF f pos n).length = n) :
    readPadded f pos n = sliceF f pos n := by
  unfold readPadded
  rw [h]
  simp

theorem sliceF_prefix (f ext : Bytes) (pos n : Nat) (h : pos + n ≤ f.length) :
    sliceF (f ++ ext) pos n = sliceF f pos n := by
  unfold sliceF
  rw [List.drop_append_of_le_length (by omega), List.take_append_of_le_length (by simp; omega)]

theorem read_value_append (f ext : Bytes) (pos len : Nat) (h : pos + len ≤ f.length) :
    read_value (f ++ ext) pos len = read_value f pos len := by
  unfold read_value
  rw [if_pos h, if_pos (by simp; omega), sliceF_prefix f ext pos len h]

theorem read_value_of_le (f : Bytes) (pos len : Nat) (h : pos + len ≤ f.length) :
    read_value f pos len = some (sliceF f pos len) := by
  unfold read_value
  rw [if_pos h]

/-! ### The lexicographic order -/

theorem lexLt_irrefl (a : Bytes) : lexLt a a = false := by
  induction a with
  | nil => rfl
  | cons x xs ih => simp [lexLt, ih]

theorem ne_of_lexLt {a b : Bytes} (h : lexLt a b = true) : a ≠ b := by
  intro hab
  subst hab
  rw [lexLt_irrefl] at h
  exact Bool.noConfusion h

theorem lexLt_trans : ∀ (a b c : Bytes),
    lexLt a b = true → lexLt b c = true → lexLt a c = true
  | _, b, [] => fun _ h2 => by cases b <;> simp [lexLt] at h2
  | [], _, _ :: _ => fun _ _ => rfl
  | _ :: _, [], _ :: _ => fun h1 _ => by simp [lexLt] at h1
  | a :: as, b :: bs, c :: cs => fun h1 h2 => by
      simp only [lexLt] at h1 h2 ⊢
      by_cases hab : a < b
      · by_cases hbc : b < c
        · rw [if_pos (by omega)]
        · rw [if_neg hbc] at h2
          by_cases hcb : c < b
          · rw [if_pos hcb] at h2
            exact Bool.noConfusion h2
          · rw [if_pos (by omega)]
      · rw [if_neg hab] at h1
        by_cases hba : b < a
        · rw [if_pos hba] at h1
          exact Bool.noConfusion h1
        · have hab' : a = b := by omega
          subst hab'
          rw [if_neg hab] at h1
          by_cases hac : a < c
          · rw [if_pos hac]
          · rw [if_neg hac] at h2 ⊢
            by_cases hca : c < a
            · rw [if_pos hca] at h2
              exact Bool.noConfusion h2
            · rw [if_neg hca] at h2 ⊢
              exact lexLt_trans as bs cs h1 h2

theorem lexLt_total : ∀ (a b : Bytes), a ≠ b → lexLt a b = true ∨ lexLt b a = true
  | [], [] => fun h => absurd rfl h
  | [], _ :: _ => fun _ => Or.inl rfl
  | _ :: _, [] => fun _ => Or.inr rfl
  | a :: as, b :: bs => fun h => by
      by_cases hab : a < b
      · exact Or.inl (by simp [lexLt, hab])
      by_cases hba : b < a
      · exact Or.inr (by simp [lexLt, hba])
      have hab' : a = b := by omega
      subst hab'
      have hne : as ≠ bs := fun h' => h (by rw [h'])
      rcases lexLt_total as bs hne with h' | h'
      · exact Or.inl (by simp [lexLt, h'])
      · exact Or.inr (by simp [lexLt, h'])

theorem lexLt_asymm {a b : Bytes} (h : lexLt a b = true) : lexLt b a = false := by
  by_cases h' : lexLt b a = true
  · have := lexLt_trans a b a h h'
    rw [lexLt_irrefl] at this
    exact Bool.noConfusion this
  · simpa using h'

/-! ### Key-directory lemmas -/

theorem kdLookup_insert_self (k : Bytes) (x : Nat × Nat) (d : KeyDir) :
    kdLookup k (kdInsert k x d) = some x := by
  induction d with
  | nil => simp [kdInsert, kdLookup]
  | cons p rest ih =>
      obtain ⟨k', v'⟩ := p
      by_cases h1 : lexLt k k' = true
      · simp [kdInsert, h1, kdLookup]
      · by_cases h2 : k = k'
        · subst h2
          simp [kdInsert, lexLt_irrefl, kdLookup]
        · simp [kdInsert, h1, h2, kdLookup, ih]

theorem kdLookup_insert_ne (k k2 : Bytes) (x : Nat × Nat) (d : KeyDir) (h : k ≠ k2) :
    kdLookup k (kdInsert k2 x d) = kdLookup k d := by
  induction d with
  | nil => simp [kdInsert, kdLookup, h]
  | cons p rest ih =>
      obtain ⟨k', v'⟩ := p
      by_cases h1 : lexLt k2 k' = true
      · simp [kdInsert, h1, kdLookup, h]
      · by_cases h2 : k2 = k'
        · subst h2
          simp [kdInsert, h1, kdLookup, h]
        · simp [kdInsert, h1, h2, kdLookup, ih]

theorem kdLookup_erase_ne (k k2 : Bytes) (d : KeyDir) (h : k ≠ k2) :
    kdLookup k (kdErase k2 d) = kdLookup k d := by
  induction d with
  | nil => rfl
  | cons p rest ih =>
      obtain ⟨k', v'⟩ := p
      by_cases h2 : k2 = k'
      · subst h2
        simp [kdErase, kdLookup, h]
      · simp [kdErase, h2, kdLookup, ih]

theorem kdLookup_none_iff (k : Bytes) (d : KeyDir) :
    kdLookup k d = none ↔ k ∉ d.map Prod.fst := by
  induction d with
  | nil => simp [kdLookup]
  | cons p rest ih =>
      obtain ⟨k', v'⟩ := p
      by_cases h : k = k'
      · subst h
        simp [kdLookup]
      · simp [kdLookup, h, ih, Ne.symm h]

theorem kdErase_of_not_mem (k : Bytes) (d : KeyDir) (h : k ∉ d.map Prod.fst) :
    kdErase k d = d := by
  induction d with
  | nil => rfl
  | cons p rest ih =>
      obtain ⟨k', v'⟩ := p
      simp only [List.map_cons, List.mem_cons] at h
      push_neg at h
      simp [kdErase, h.1, ih h.2]

theorem kdErase_sublist (k : Bytes) (d : KeyDir) : (kdErase k d).Sublist d := by
  induction d with
  | nil => simp [kdErase]
  | cons p rest ih =>
      obtain ⟨k', v'⟩ := p
      by_cases h : k = k'
      · simp [kdErase, h]
      · simpa [kdErase, h] using ih.cons₂ (k', v')

theorem kdLookup_erase_self (k : Bytes) (d : KeyDir) (h : (d.map Prod.fst).Nodup) :
    kdLookup k (kdErase k d) = none := by
  induction d with
  | nil => rfl
  | cons p rest ih =>
      obtain ⟨k', v'⟩ := p
      simp only [List.map_cons, List.nodup_cons] at h
      by_cases hk : k = k'
      · subst hk
        simp only [kdErase, if_pos rfl]
        exact (kdLookup_none_iff k rest).mpr h.1
      · simp [kdErase, hk, kdLookup, ih h.2]

theorem kdInsert_mem (k : Bytes) (x : Nat × Nat) (d : KeyDir) (p : Bytes × Nat × Nat)
    (h : p ∈ kdInsert k x d) : p = (k, x) ∨ p ∈ d := by
  induction d with
  | nil => simpa [kdInsert] using h
  | cons q rest ih =>
      obtain ⟨k', v'⟩ := q
      by_cases h1 : lexLt k k' = true
      · simp only [kdInsert, if_pos h1, List.mem_cons] at h
        rcases h with h | h | h
        · exact Or.inl h
        · exact Or.inr (by simp [h])
        · exact Or.inr (List.mem_cons_of_mem _ h)
      · by_cases h2 : k = k'
        · simp only [kdInsert, if_neg h1, if_pos h2, List.mem_cons] at h
          rcases h with h | h
          · exact Or.inl h
          · exact Or.inr (List.mem_cons_of_mem _ h)
        · simp only [kdInsert, if_neg h1, if_neg h2, List.mem_cons] at h
          rcases h with h | h
          · exact Or.inr (by simp [h])
          · rcases ih h with h' | h'
            · exact Or.inl h'
            · exact Or.inr (List.mem_cons_of_mem _ h')

theorem kdSorted_insert (k : Bytes) (x : Nat × Nat) (d : KeyDir)
    (h : List.Pairwise (fun p q => lexLt p.1 q.1 = true) d) :
    List.Pairwise (fun p q => lexLt p.1 q.1 = true) (kdInsert k x d) := by
  induction d with
  | nil => simp [kdInsert]
  | cons p rest ih =>
      obtain ⟨k', v'⟩ := p
      rw [List.pairwise_cons] at h
      by_cases h1 : lexLt k k' = true
      · rw [kdInsert, if_pos h1, List.pairwise_cons, List.pairwise_cons]
        refine ⟨?_, h.1, h.2⟩
        intro q hq
        rw [List.mem_cons] at hq
        rcases hq with hq | hq
        · simpa [hq] using h1
        · exact lexLt_trans _ _ _ h1 (h.1 q hq)
      · by_cases h2 : k = k'
        · subst h2
          rw [kdInsert, if_neg h1, if_pos rfl, List.pairwise_cons]
          exact ⟨h.1, h.2⟩
        · rw [kdInsert, if_neg h1, if_neg h2, List.pairwise_cons]
          refine ⟨?_, ih h.2⟩
          intro q hq
          rcases kdInsert_mem k x rest q hq with hq' | hq'
          · rcases lexLt_total k k' h2 with h' | h'
            · exact absurd h' h1
            · simpa [hq'] using h'
          · exact h.1 q hq'

theorem kdSorted_erase (k : Bytes) (d : KeyDir)
    (h : List.Pairwise (fun p q => lexLt p.1 q.1 = true) d) :
    List.Pairwise (fun p q => lexLt p.1 q.1 = true) (kdErase k d) :=
  h.sublist (kdErase_sublist k d)

theorem kdSorted_keys_nodup (d : KeyDir)
    (h : List.Pairwise (fun p q => lexLt p.1 q.1 = true) d) :
    (d.map Prod.fst).Nodup := by
  refine List.Pairwise.map Prod.fst ?_ h
  intro p q hpq
  exact ne_of_lexLt hpq

theorem kdLookup_isSome_iff (k : Bytes) (d : KeyDir) :
    (kdLookup k d).isSome = true ↔ k ∈ d.map Prod.fst := by
  rcases hd : kdLookup k d with _ | x
  · simpa using (kdLookup_none_iff k d).mp hd
  · simp only [Option.isSome_some, true_iff]
    by_contra hmem
    rw [(kdLookup_none_iff k d).mpr hmem] at hd
    exact Option.noConfusion hd

theorem kdLookup_of_mem_sorted (k : Bytes) (x : Nat × Nat) (d : KeyDir)
    (hs : List.Pairwise (fun p q => lexLt p.1 q.1 = true) d)
    (h : (k, x) ∈ d) : kdLookup k d = some x := by
  induction d with
  | nil => simp at h
  | cons p rest ih =>
      obtain ⟨k', v'⟩ := p
      rw [List.pairwise_cons] at hs
      rw [List.mem_cons] at h
      rcases h with h | h
      · cases h
        simp [kdLookup]
      · by_cases hk : k = k'
        · subst hk
          have hlt := hs.1 (k, x) h
          rw [show ((k, x) : Bytes × Nat × Nat).1 = k from rfl, lexLt_irrefl] at hlt
          exact Bool.noConfusion hlt
        · rw [kdLookup, if_neg hk]
          exact ih hs.2 h

/-! ### Record-level lemmas -/

theorem entryLen_some (k v : Bytes) (h : 8 + k.length + v.length < 4294967296) :
    entryLen k (some v) = 8 + k.length + v.length := by
  simp only [entryLen, Option.getD_some]
  omega

theorem entryLen_none (k : Bytes) : entryLen k none = (8 + k.length % 4294967296) % 4294967296 := by
  simp [entryLen]

theorem encRecord_length_some (k v : Bytes) :
    (encRecord k (some v)).length = 8 + k.length + v.length := by
  simp only [encRecord, lenField, Option.getD_some, List.length_append, u32be_length]

theorem encRecord_length_none (k : Bytes) : (encRecord k none).length = 8 + k.length := by
  simp only [encRecord, lenField, Option.getD_none, List.length_append, u32be_length,
    List.length_nil]
  omega

theorem get_eq_of_lookup (s : Store) (k : Bytes) (pos len : Nat)
    (h : kdLookup k s.keydir = some (pos, len)) :
    get s k = (read_value s.file pos len).map some := by
  unfold get
  rw [h]

theorem get_eq_of_lookup_none (s : Store) (k : Bytes)
    (h : kdLookup k s.keydir = none) : get s k = some none := by
  unfold get
  rw [h]

theorem encRecord_some_value_slice (k v : Bytes) :
    sliceF (encRecord k (some v)) (8 + k.length) v.length = v := by
  have h1 : encRecord k (some v) =
      (u32be (k.length % 4294967296) ++ lenField (some v)) ++ (k ++ v) := by
    simp [encRecord, List.append_assoc]
  have h2 : (u32be (k.length % 4294967296) ++ lenField (some v)).length = 8 := by
    simp [lenField, u32be_length]
  rw [h1, show 8 + k.length =
    (u32be (k.length % 4294967296) ++ lenField (some v)).length + k.length by rw [h2],
    sliceF_append_plus, show k.length = (k : Bytes).length + 0 by omega, sliceF_append_plus]
  simp [sliceF]

/-! ### Point operations: set / delete / get -/

theorem set_keydir (s : Store) (key value : Bytes)
    (h : 8 + key.length + value.length < 4294967296) :
    (set s key value).keydir =
      kdInsert key (s.file.length + 8 + key.length, value.length) s.keydir := by
  have hv : value.length % 4294967296 = value.length := Nat.mod_eq_of_lt (by omega)
  simp only [set, write_entry]
  rw [hv, entryLen_some key value h,
    show s.file.length + (8 + key.length + value.length) - value.length =
      s.file.length + 8 + key.length by omega]

theorem get_set_self (s : Store) (key value : Bytes)
    (h : 8 + key.length + value.length < 4294967296) :
    get (set s key value) key = some (some value) := by
  rw [get_eq_of_lookup (set s key value) key (s.file.length + 8 + key.length) value.length
    (by rw [set_keydir s key value h]; exact kdLookup_insert_self ..)]
  rw [show (set s key value).file = s.file ++ encRecord key (some value) from rfl]
  rw [read_value_of_le _ _ _
    (by rw [List.length_append, encRecord_length_some]; omega)]
  rw [show s.file.length + 8 + key.length = s.file.length + (8 + key.length) by omega]
  rw [sliceF_append_plus, encRecord_some_value_slice]
  rfl

theorem get_stable_applyOp (s : Store) (k v : Bytes) (op : Op)
    (hop : touches k op = false) (h : get s k = some (some v)) :
    get (applyOp s op) k = some (some v) := by
  cases hd : kdLookup k s.keydir with
  | none => rw [get_eq_of_lookup_none s k hd] at h; simp at h
  | some pl =>
    obtain ⟨pos, len⟩ := pl
    rw [get_eq_of_lookup s k pos len hd] at h
    have hrv : read_value s.file pos len = some v := by
      cases hr : read_value s.file pos len <;> rw [hr] at h <;> simp_all
    have hle : pos + len ≤ s.file.length := by
      by_contra hgt
      unfold read_value at hrv
      rw [if_neg (by omega)] at hrv
      exact Option.noConfusion hrv
    cases op with
    | set k' v' =>
      have hk : k' ≠ k := by simpa [touches] using hop
      rw [get_eq_of_lookup (applyOp s (Op.set k' v')) k pos len
        (by simp only [applyOp, set, write_entry]
            rw [kdLookup_insert_ne k k' _ _ (Ne.symm hk)]
            exact hd)]
      rw [show (applyOp s (Op.set k' v')).file = s.file ++ encRecord k' (some v') from rfl]
      rw [read_value_append _ _ _ _ hle, hrv]
      rfl
    | del k' =>
      have hk : k' ≠ k := by simpa [touches] using hop
      rw [get_eq_of_lookup (applyOp s (Op.del k')) k pos len
        (by simp only [applyOp, delete, write_entry]
            rw [kdLookup_erase_ne k k' _ (Ne.symm hk)]
            exact hd)]
      rw [show (applyOp s (Op.del k')).file = s.file ++ encRecord k' none from rfl]
      rw [read_value_append _ _ _ _ hle, hrv]
      rfl

theorem get_stable_runFrom (s : Store) (k v : Bytes) (ops : List Op)
    (hops : ∀ op ∈ ops, touches k op = false) (h : get s k = some (some v)) :
    get (runFrom s ops) k = some (some v) := by
  induction ops generalizing s with
  | nil => exact h
  | cons op rest ih =>
      exact ih (applyOp s op)
        (fun o ho => hops o (List.mem_cons_of_mem _ ho))
        (get_stable_applyOp s k v op (hops op (List.mem_cons_self _ _)) h)

/-- C1: latest write wins.  After `set(K, V)` followed by any operations
that do not touch K, `get(K)` returns `Ok(Some(V))`; after a subsequent
`set(K, V2)`, `get(K)` returns `Ok(Some(V2))`.  The length bounds are
the spec's 32-bit field limits on a record (§6). -/
theorem latest_write_wins (s : Store) (ops : List Op) (k v v2 : Bytes)
    (h1 : 8 + k.length + v.length < 4294967296)
    (h2 : 8 + k.length + v2.length < 4294967296)
    (hops : ∀ op ∈ ops, touches k op = false) :
    get (runFrom (set s k v) ops) k = some (some v) ∧
    get (set (runFrom (set s k v) ops) k v2) k = some (some v2) :=
  ⟨get_stable_runFrom _ _ _ _ hops (get_set_self s k v h1),
   get_set_self _ k v2 h2⟩

theorem latest_write_wins_witness :
    get (runFrom (set (run []) [97] [1]) [Op.set [98] [9]]) [97] = some (some [1]) ∧
    get (set (runFrom (set (run []) [97] [1]) [Op.set [98] [9]]) [97] [2]) [97] =
      some (some [2]) :=
  latest_write_wins (run []) [Op.set [98] [9]] [97] [1] [2]
    (by decide) (by decide) (by decide)

theorem get_delete_set_self (s : Store) (k v : Bytes)
    (hs : List.Pairwise (fun p q => lexLt p.1 q.1 = true) s.keydir) :
    get (delete (set s k v) k) k = some none := by
  refine get_eq_of_lookup_none _ k ?_
  show kdLookup k (kdErase k (set s k v).keydir) = none
  refine kdLookup_erase_self k _ (kdSorted_keys_nodup _ ?_)
  simp only [set, write_entry]
  exact kdSorted_insert _ _ _ hs

theorem lookup_none_runFrom (s : Store) (k : Bytes) (ops : List Op)
    (h : kdLookup k s.keydir = none) (hops : ∀ op ∈ ops, setsKey k op = false) :
    kdLookup k (runFrom s ops).keydir = none := by
  induction ops generalizing s with
  | nil => exact h
  | cons op rest ih =>
      refine ih (applyOp s op) ?_ (fun o ho => hops o (List.mem_cons_of_mem _ ho))
      cases op with
      | set k' v' =>
          have hk : k' ≠ k := by simpa [setsKey] using hops _ (List.mem_cons_self ..)
          simp only [applyOp, set, write_entry]
          rw [kdLookup_insert_ne k k' _ _ (Ne.symm hk)]
          exact h
      | del k' =>
          simp only [applyOp, delete, write_entry]
          by_cases hk : k = k'
          · subst hk
            rw [kdLookup_none_iff] at h ⊢
            intro hmem
            exact h (((kdErase_sublist k s.keydir).map Prod.fst).subset hmem)
          · rw [kdLookup_erase_ne k k' _ hk]
            exact h

/-- C2: `get` returns `Ok(None)` exactly for non-live keys: after
`set(K, V); delete(K)` a `get(K)` is `Ok(None)` (for any store whose
directory is a valid `BTreeMap`, i.e. sorted), and `get` of a key never
`set` during a run from a fresh store is `Ok(None)`. -/
theorem get_none_for_non_live (s : Store) (k v kn : Bytes) (ops : List Op)
    (hs : List.Pairwise (fun p q => lexLt p.1 q.1 = true) s.keydir)
    (hops : ∀ op ∈ ops, setsKey kn op = false) :
    get (delete (set s k v) k) k = some none ∧ get (run ops) kn = some none := by
  refine ⟨get_delete_set_self s k v hs, ?_⟩
  exact get_eq_of_lookup_none _ kn (lookup_none_runFrom emptyStore kn ops rfl hops)

theorem get_none_for_non_live_witness :
    get (delete (set (run [Op.set [98] [7]]) [97] [1]) [97]) [97] = some none ∧
    get (run [Op.set [98] [2], Op.del [97]]) [97] = some none :=
  get_none_for_non_live (run [Op.set [98] [7]]) [97] [1] [97]
    [Op.set [98] [2], Op.del [97]] (by decide) (by decide)

/-- C10: deleting an absent key is harmless but not a no-op on disk: it
(always) succeeds, appends exactly the `8 + |K|`-byte tombstone record
to the log file, leaves the directory — hence every other entry —
unchanged, and `get(K)` still returns `Ok(None)`. -/
theorem delete_absent (s : Store) (k : Bytes) (h : kdLookup k s.keydir = none) :
    delete s k = { file := s.file ++ encRecord k none, keydir := s.keydir } ∧
    (encRecord k none).length = 8 + k.length ∧
    get (delete s k) k = some none := by
  have he : kdErase k s.keydir = s.keydir :=
    kdErase_of_not_mem k s.keydir ((kdLookup_none_iff k s.keydir).mp h)
  refine ⟨?_, encRecord_length_none k, ?_⟩
  · simp only [delete, write_entry]
    rw [he]
  · refine get_eq_of_lookup_none _ k ?_
    show kdLookup k (kdErase k s.keydir) = none
    rw [he]
    exact h

theorem delete_absent_witness :
    delete (run [Op.set [98] [7]]) [97] =
      { file := (run [Op.set [98] [7]]).file ++ encRecord [97] none,
        keydir := (run [Op.set [98] [7]]).keydir } ∧
    (encRecord ([97] : Bytes) none).length = 8 + ([97] : Bytes).length ∧
    get (delete (run [Op.set [98] [7]]) [97]) [97] = some none :=
  delete_absent (run [Op.set [98] [7]]) [97] (by decide)

/-- C5: the claim fails on the code.  `scan_prefix` of a prefix whose
last byte is `0xFF` wraps that byte to `0x00`, producing a reversed
range on which `BTreeMap::range` panics (modelled `none`) — it does not
yield the live key `[0xFF]` that starts with the prefix.  `scan_prefix`
of the empty prefix uses the range `[[], [])`, which is empty — not a
full scan — so the live key `[97]` is not yielded either. -/
theorem scanPrefix_cex :
    scanPrefix (run [Op.set [255] [1]]) [255] = none ∧
    scanPrefix (run [Op.set [97] [1]]) [] = some [] ∧
    get (run [Op.set [255] [1]]) [255] = some (some [1]) ∧
    get (run [Op.set [97] [1]]) [97] = some (some [1]) := by
  decide

/-- C8: the claim fails on the code.  On the 9-byte file whose header
declares a 1-byte key `0x61` and a 1-byte value but whose value byte is
missing, `load_index` silently succeeds and returns a directory entry
`(value_pos 9, value_len 1)` derived from the incomplete record and
pointing past end-of-file (a later `get` of that key then fails). -/
theorem load_index_truncated_cex :
    load_index [0, 0, 0, 1, 0, 0, 0, 1, 97] = [([97], (9, 1))] ∧
    ([0, 0, 0, 1, 0, 0, 0, 1, 97] : Bytes).length < 9 + 1 ∧
    get { file := [0, 0, 0, 1, 0, 0, 0, 1, 97],
          keydir := load_index [0, 0, 0, 1, 0, 0, 0, 1, 97] } [97] = none := by
  decide

/-- C9: the lock part of the claim fails on the code.  `Log::new`
propagates directory-creation and open failures with `?`, but discards
the `Result` of `try_lock_exclusive()`: with the lock unavailable it
still returns `Ok`, so a failed lock attempt is silently ignored. -/
theorem logNew_ignores_lock_failure :
    logNew { createDirOk := true, openOk := true, lockOk := false } = some () ∧
    logNew { createDirOk := false, openOk := true, lockOk := true } = none ∧
    logNew { createDirOk := true, openOk := false, lockOk := true } = none := by
  decide

/-! ### Reopen: `load_index` re-reads exactly what a run wrote -/

theorem take4_u32be (a : Nat) (z : Bytes) : (u32be a ++ z).take 4 = u32be a := by
  rw [show (4 : Nat) = (u32be a).length from rfl, List.take_left]

theorem readPadded_4 (pre z : Bytes) (a : Nat) :
    readPadded (pre ++ (u32be a ++ z)) pre.length 4 = u32be a := by
  have h : sliceF (pre ++ (u32be a ++ z)) pre.length 4 = u32be a := by
    rw [sliceF_append_zero]
    show ((u32be a ++ z).drop 0).take 4 = u32be a
    rw [List.drop_zero, take4_u32be]
  rw [readPadded_of_full _ _ _ (by rw [h]; rfl), h]

theorem readPadded_exact (pre k z : Bytes) :
    readPadded (pre ++ (k ++ z)) pre.length k.length = k := by
  have h : sliceF (pre ++ (k ++ z)) pre.length k.length = k := by
    rw [sliceF_append_zero]
    show ((k ++ z).drop 0).take k.length = k
    rw [List.drop_zero, List.take_left]
  rw [readPadded_of_full _ _ _ (by rw [h]), h]

theorem loadLoop_set_step (fuel : Nat) (pre t k v : Bytes) (kd : KeyDir)
    (hk : 8 + k.length + v.length < 4294967296) (hv : v.length < 2147483648) :
    loadLoop (fuel + 1) (pre ++ (encRecord k (some v) ++ t)) pre.length kd =
      loadLoop fuel (pre ++ (encRecord k (some v) ++ t))
        (pre.length + 8 + k.length + v.length)
        (kdInsert k (pre.length + 8 + k.length, v.length) kd) := by
  have hmk : k.length % 4294967296 = k.length := Nat.mod_eq_of_lt (by omega)
  have hmv : v.length % 4294967296 = v.length := Nat.mod_eq_of_lt (by omega)
  have hsplit : encRecord k (some v) ++ t =
      u32be k.length ++ (u32be v.length ++ (k ++ (v ++ t))) := by
    simp [encRecord, lenField, List.append_assoc, hmk, hmv]
  rw [hsplit]
  have hlen : pre.length <
      (pre ++ (u32be k.length ++ (u32be v.length ++ (k ++ (v ++ t))))).length := by
    simp [u32be_length]
  have hA : readPadded (pre ++ (u32be k.length ++ (u32be v.length ++ (k ++ (v ++ t)))))
      pre.length 4 = u32be k.length := readPadded_4 ..
  have hB : readPadded (pre ++ (u32be k.length ++ (u32be v.length ++ (k ++ (v ++ t)))))
      (pre.length + 4) 4 = u32be v.length := by
    have h4 := readPadded_4 (pre ++ u32be k.length) (k ++ (v ++ t)) v.length
    rw [show (pre ++ u32be k.length).length = pre.length + 4 from by simp [u32be_length],
      List.append_assoc] at h4
    exact h4
  have hC : readPadded (pre ++ (u32be k.length ++ (u32be v.length ++ (k ++ (v ++ t)))))
      (pre.length + 8) k.length = k := by
    have h4 := readPadded_exact (pre ++ u32be k.length ++ u32be v.length) k (v ++ t)
    rw [show (pre ++ u32be k.length ++ u32be v.length).length = pre.length + 8 from by
        simp [u32be_length], List.append_assoc, List.append_assoc] at h4
    exact h4
  simp only [loadLoop, if_pos hlen, hA, hB, hC, u32_of_be_u32be, hmk, hmv]
  rw [if_pos hv]

theorem loadLoop_del_step (fuel : Nat) (pre t k : Bytes) (kd : KeyDir)
    (hk : k.length < 4294967296) :
    loadLoop (fuel + 1) (pre ++ (encRecord k none ++ t)) pre.length kd =
      loadLoop fuel (pre ++ (encRecord k none ++ t))
        (pre.length + 8 + k.length)
        (kdErase k kd) := by
  have hmk : k.length % 4294967296 = k.length := Nat.mod_eq_of_lt (by omega)
  have hsplit : encRecord k none ++ t =
      u32be k.length ++ (u32be 4294967295 ++ (k ++ t)) := by
    simp [encRecord, lenField, List.append_assoc, hmk]
  rw [hsplit]
  have hlen : pre.length <
      (pre ++ (u32be k.length ++ (u32be 4294967295 ++ (k ++ t)))).length := by
    simp [u32be_length]
  have hA : readPadded (pre ++ (u32be k.length ++ (u32be 4294967295 ++ (k ++ t))))
      pre.length 4 = u32be k.length := readPadded_4 ..
  have hB : readPadded (pre ++ (u32be k.length ++ (u32be 4294967295 ++ (k ++ t))))
      (pre.length + 4) 4 = u32be 4294967295 := by
    have h4 := readPadded_4 (pre ++ u32be k.length) (k ++ t) 4294967295
    rw [show (pre ++ u32be k.length).length = pre.length + 4 from by simp [u32be_length],
      List.append_assoc] at h4
    exact h4
  have hC : readPadded (pre ++ (u32be k.length ++ (u32be 4294967295 ++ (k ++ t))))
      (pre.length + 8) k.length = k := by
    have h4 := readPadded_exact (pre ++ u32be k.length ++ u32be 4294967295) k t
    rw [show (pre ++ u32be k.length ++ u32be 4294967295).length = pre.length + 8 from by
        simp [u32be_length], List.append_assoc, List.append_assoc] at h4
    exact h4
  simp only [loadLoop, if_pos hlen, hA, hB, hC, u32_of_be_u32be, hmk]
  rw [if_neg (by norm_num)]

theorem encFile_cons (op : Op) (rest : List Op) :
    encFile (op :: rest) = encOp op ++ encFile rest := by
  simp [encFile]

theorem loadLoop_enc (ops : List Op) : ∀ (pre : Bytes) (kd : KeyDir) (fuel : Nat),
    ops.length ≤ fuel → (∀ op ∈ ops, opOk op = true) →
    loadLoop fuel (pre ++ encFile ops) pre.length kd = dirRun kd pre.length ops := by
  induction ops with
  | nil =>
      intro pre kd fuel _ _
      cases fuel with
      | zero => rfl
      | succ f =>
          rw [show encFile [] = [] from rfl]
          simp [loadLoop, dirRun]
  | cons op rest ih =>
      intro pre kd fuel hfuel hops
      cases fuel with
      | zero => simp at hfuel
      | succ f =>
          have hop := hops op (List.mem_cons_self ..)
          have hrest : ∀ o ∈ rest, opOk o = true :=
            fun o ho => hops o (List.mem_cons_of_mem _ ho)
          have hf : rest.length ≤ f := by simpa using hfuel
          rw [encFile_cons]
          cases op with
          | set k v =>
              simp only [opOk, Bool.and_eq_true, decide_eq_true_eq] at hop
              rw [show encOp (Op.set k v) = encRecord k (some v) from rfl]
              rw [loadLoop_set_step f pre (encFile rest) k v kd hop.1 hop.2]
              simp only [dirRun]
              rw [show pre.length + 8 + k.length + v.length =
                  (pre ++ encRecord k (some v)).length from by
                  simp [encRecord_length_some]; omega]
              rw [← List.append_assoc]
              exact ih (pre ++ encRecord k (some v)) _ f hf hrest
          | del k =>
              simp only [opOk, decide_eq_true_eq] at hop
              rw [show encOp (Op.del k) = encRecord k none from rfl]
              rw [loadLoop_del_step f pre (encFile rest) k kd hop]
              simp only [dirRun]
              rw [show pre.length + 8 + k.length =
                  (pre ++ encRecord k none).length from by
                  simp [encRecord_length_none]; omega]
              rw [← List.append_assoc]
              exact ih (pre ++ encRecord k none) _ f hf hrest

theorem runFrom_spec (s : Store) (ops : List Op) (hops : ∀ op ∈ ops, opOk op = true) :
    (runFrom s ops).file = s.file ++ encFile ops ∧
    (runFrom s ops).keydir = dirRun s.keydir s.file.length ops := by
  induction ops generalizing s with
  | nil => simp [runFrom, encFile, dirRun]
  | cons op rest ih =>
      have hop := hops op (List.mem_cons_self ..)
      have hrest : ∀ o ∈ rest, opOk o = true :=
        fun o ho => hops o (List.mem_cons_of_mem _ ho)
      have hstep : runFrom s (op :: rest) = runFrom (applyOp s op) rest := rfl
      rw [hstep, encFile_cons]
      obtain ⟨hfile, hkd⟩ := ih (applyOp s op) hrest
      cases op with
      | set k v =>
          simp only [opOk, Bool.and_eq_true, decide_eq_true_eq] at hop
          have hof : (applyOp s (Op.set k v)).file = s.file ++ encRecord k (some v) := rfl
          have hol : (applyOp s (Op.set k v)).file.length =
              s.file.length + 8 + k.length + v.length := by
            rw [hof]
            simp [encRecord_length_some]
            omega
          constructor
          · rw [hfile, hof, show encOp (Op.set k v) = encRecord k (some v) from rfl,
              List.append_assoc]
          · rw [hkd, hol,
              show (applyOp s (Op.set k v)).keydir =
                kdInsert k (s.file.length + 8 + k.length, v.length) s.keydir from
                set_keydir s k v (by omega)]
            simp only [dirRun]
      | del k =>
          have hof : (applyOp s (Op.del k)).file = s.file ++ encRecord k none := rfl
          have hol : (applyOp s (Op.del k)).file.length = s.file.length + 8 + k.length := by
            rw [hof]
            simp [encRecord_length_none]
            omega
          constructor
          · rw [hfile, hof, show encOp (Op.del k) = encRecord k none from rfl,
              List.append_assoc]
          · rw [hkd, hol,
              show (applyOp s (Op.del k)).keydir = kdErase k s.keydir from rfl]
            simp only [dirRun]

theorem encFile_length_ge (ops : List Op) : ops.length ≤ (encFile ops).length := by
  induction ops with
  | nil => simp [encFile]
  | cons op rest ih =>
      rw [encFile_cons, List.length_append]
      have h1 : 1 ≤ (encOp op).length := by
        cases op with
        | set k v => rw [show encOp (Op.set k v) = encRecord k (some v) from rfl,
            encRecord_length_some]; omega
        | del k => rw [show encOp (Op.del k) = encRecord k none from rfl,
            encRecord_length_none]; omega
      simp only [List.length_cons]
      omega

/-- C3: reopen round-trip.  For every sequence of `set`/`delete`
operations within the spec's 32-bit field limits, re-scanning the log
file that the run produced (`Log::load_index`, as `MiniBitcask::new`
does on reopen) rebuilds exactly the in-memory directory of the closed
store — the same keys, each bound to the same `(value_pos, value_len)`
into the same file bytes, hence the same value bytes. -/
theorem reopen_round_trip (ops : List Op) (hops : ∀ op ∈ ops, opOk op = true) :
    load_index (run ops).file = (run ops).keydir := by
  obtain ⟨hfile, hkd⟩ := runFrom_spec emptyStore ops hops
  rw [show run ops = runFrom emptyStore ops from rfl, hfile, hkd]
  unfold load_index
  exact loadLoop_enc ops [] [] _
    (le_trans (encFile_length_ge ops) (by simp)) hops

theorem reopen_round_trip_witness :
    load_index (run [Op.set [97] [1, 2], Op.set [98] [3], Op.del [97],
      Op.set [97] [7], Op.del [99]]).file =
    (run [Op.set [97] [1, 2], Op.set [98] [3], Op.del [97],
      Op.set [97] [7], Op.del [99]]).keydir :=
  reopen_round_trip _ (by decide)

/-! ### Range scans -/

theorem map_fst_filter (pred : Bytes → Bool) (d : KeyDir) :
    (d.filter (fun p => pred p.1)).map Prod.fst = (d.map Prod.fst).filter pred := by
  induction d with
  | nil => rfl
  | cons p rest ih =>
      by_cases h : pred p.1 <;> simp [List.filter_cons, h, ih]

/-- C4 counterexample: with reversed bounds `a = [1]`, `b = [0]` there is
no live key in `[a, b)`, so the claim requires the scan to yield the
empty item list (`some []`); instead `BTreeMap::range` panics (`none`). -/
theorem scan_reversed_bounds_cex :
    scan (run [Op.set [97] [1]]) (DBound.included [1]) (DBound.excluded [0]) = none ∧
    (none : Option (List (Bytes × Option Bytes))) ≠ some [] := by
  decide

/-- C4 (amended: for bounds with `a ≤ b`; for `a > b` the underlying
`BTreeMap::range` panics, see the counterexample).  On every store state
satisfying the `BTreeMap`/Bitcask invariant, `scan([a, b))` succeeds and
yields exactly the live keys `K` with `a ≤ K < b` — those and no others,
in ascending unsigned-lex order — each paired with its current value
(the bytes `get` returns); traversing the same item list from the back
(`next_back`) gives the same keys in descending order. -/
theorem scan_range_spec (s : Store) (a b : Bytes) (hW : Wf s)
    (hab : lexLt b a = false) :
    ∃ l, scan s (.included a) (.excluded b) = some l ∧
      l.map Prod.fst = (s.keydir.map Prod.fst).filter (fun x => !lexLt x a && lexLt x b) ∧
      (∀ x : Bytes, x ∈ l.map Prod.fst ↔
        ((kdLookup x s.keydir).isSome = true ∧ lexLt x a = false ∧ lexLt x b = true)) ∧
      (∀ p ∈ l, ∃ w, p.2 = some w ∧ get s p.1 = some (some w)) ∧
      (l.map Prod.fst).Pairwise (fun x y => lexLt x y = true) ∧
      (l.reverse.map Prod.fst).Pairwise (fun x y => lexLt y x = true) := by
  have hscan : scan s (.included a) (.excluded b) =
      some ((s.keydir.filter (fun p => !lexLt p.1 a && lexLt p.1 b)).map
        (fun p => (p.1, read_value s.file p.2.1 p.2.2))) := by
    unfold scan
    rw [if_neg (by simp [rangeBad, hab])]
    rfl
  refine ⟨_, hscan, ?_, ?_, ?_, ?_, ?_⟩
  · rw [List.map_map, show Prod.fst ∘ (fun p : Bytes × Nat × Nat =>
      (p.1, read_value s.file p.2.1 p.2.2)) = Prod.fst from rfl]
    exact map_fst_filter (fun x => !lexLt x a && lexLt x b) s.keydir
  · intro x
    rw [List.map_map, show Prod.fst ∘ (fun p : Bytes × Nat × Nat =>
      (p.1, read_value s.file p.2.1 p.2.2)) = Prod.fst from rfl,
      map_fst_filter (fun x => !lexLt x a && lexLt x b) s.keydir, List.mem_filter, kdLookup_isSome_iff]
    simp
  · intro p hp
    rw [List.mem_map] at hp
    obtain ⟨e, he, rfl⟩ := hp
    have hed : e ∈ s.keydir := List.mem_of_mem_filter he
    obtain ⟨hle, _⟩ := hW.2 e hed
    refine ⟨sliceF s.file e.2.1 e.2.2, read_value_of_le _ _ _ hle, ?_⟩
    rw [get_eq_of_lookup s e.1 e.2.1 e.2.2
      (kdLookup_of_mem_sorted e.1 e.2 s.keydir hW.1 (by simpa using hed)),
      read_value_of_le _ _ _ hle]
    rfl
  · rw [List.map_map, show Prod.fst ∘ (fun p : Bytes × Nat × Nat =>
      (p.1, read_value s.file p.2.1 p.2.2)) = Prod.fst from rfl,
      map_fst_filter (fun x => !lexLt x a && lexLt x b) s.keydir]
    exact (List.Pairwise.map Prod.fst (fun p q h => h) hW.1).sublist
      (List.filter_sublist _)
  · rw [List.map_reverse, List.pairwise_reverse, List.map_map,
      show Prod.fst ∘ (fun p : Bytes × Nat × Nat =>
        (p.1, read_value s.file p.2.1 p.2.2)) = Prod.fst from rfl,
      map_fst_filter (fun x => !lexLt x a && lexLt x b) s.keydir]
    exact (List.Pairwise.map Prod.fst (fun p q h => h) hW.1).sublist
      (List.filter_sublist _)

theorem scan_range_spec_witness :
    ∃ l, scan (run [Op.set [97] [1], Op.set [98] [2], Op.set [99] [3]])
        (.included [97, 0]) (.excluded [99]) = some l ∧
      l.map Prod.fst = ((run [Op.set [97] [1], Op.set [98] [2],
        Op.set [99] [3]]).keydir.map Prod.fst).filter
        (fun x => !lexLt x [97, 0] && lexLt x [99]) ∧
      (∀ x : Bytes, x ∈ l.map Prod.fst ↔
        ((kdLookup x (run [Op.set [97] [1], Op.set [98] [2],
          Op.set [99] [3]]).keydir).isSome = true ∧
          lexLt x [97, 0] = false ∧ lexLt x [99] = true)) ∧
      (∀ p ∈ l, ∃ w, p.2 = some w ∧
        get (run [Op.set [97] [1], Op.set [98] [2], Op.set [99] [3]]) p.1 =
          some (some w)) ∧
      (l.map Prod.fst).Pairwise (fun x y => lexLt x y = true) ∧
      (l.reverse.map Prod.fst).Pairwise (fun x y => lexLt y x = true) :=
  scan_range_spec (run [Op.set [97] [1], Op.set [98] [2], Op.set [99] [3]])
    [97, 0] [99] (by decide) (by decide)

/-! ### Merge -/

theorem kdInsert_append_of_all_lt (k : Bytes) (x : Nat × Nat) (kd : KeyDir)
    (h : ∀ p ∈ kd, lexLt p.1 k = true) : kdInsert k x kd = kd ++ [(k, x)] := by
  induction kd with
  | nil => rfl
  | cons p rest ih =>
      obtain ⟨k', v'⟩ := p
      have hk' : lexLt k' k = true := h (k', v') (List.mem_cons_self ..)
      rw [kdInsert, if_neg (by simp [lexLt_asymm hk']),
        if_neg (Ne.symm (ne_of_lexLt hk')),
        ih (fun p hp => h p (List.mem_cons_of_mem _ hp))]
      rfl

theorem sliceF_merged_head (pre R k v : Bytes) (len : Nat) (hv : v.length = len) :
    sliceF (pre ++ (encRecord k (some v) ++ R)) (pre.length + 8 + k.length) len = v := by
  subst hv
  rw [show pre.length + 8 + k.length = pre.length + (8 + k.length) by omega,
    sliceF_append_plus, sliceF_prefix _ R _ _ (by rw [encRecord_length_some]),
    encRecord_some_value_slice]

theorem read_value_merged_head (pre R k v : Bytes) (len : Nat) (hv : v.length = len) :
    read_value (pre ++ (encRecord k (some v) ++ R)) (pre.length + 8 + k.length) len =
      some v := by
  rw [read_value_of_le _ _ _
    (by simp only [List.length_append, encRecord_length_some]; omega),
    sliceF_merged_head pre R k v len hv]

theorem mergeLoop_spec (old : Bytes) (entries : List (Bytes × Nat × Nat)) :
    ∀ (f : Bytes) (kd : KeyDir),
    (∀ e ∈ entries, e.2.1 + e.2.2 ≤ old.length ∧ 8 + e.1.length + e.2.2 < 4294967296) →
    (∀ p ∈ kd, ∀ e ∈ entries, lexLt p.1 e.1 = true) →
    List.Pairwise (fun p q => lexLt p.1 q.1 = true) entries →
    mergeLoop old entries f kd =
      some (f ++ mergedFile old entries, kd ++ mergedDir old f.length entries) := by
  induction entries with
  | nil =>
      intro f kd _ _ _
      simp [mergeLoop, mergedFile, mergedDir]
  | cons e rest ih =>
      intro f kd hok hlt hsort
      obtain ⟨k, pos, len⟩ := e
      have hin : pos + len ≤ old.length := (hok _ (List.mem_cons_self ..)).1
      have hsz : 8 + k.length + len < 4294967296 := (hok _ (List.mem_cons_self ..)).2
      have hvlen : (sliceF old pos len).length = len := sliceF_length_of_le _ _ _ hin
      rw [List.pairwise_cons] at hsort
      rw [show mergeLoop old ((k, pos, len) :: rest) f kd =
          (match read_value old pos len with
           | none => none
           | some v =>
             mergeLoop old rest (f ++ encRecord k (some v))
               (kdInsert k (f.length + entryLen k (some v) - len, len) kd)) from rfl,
        read_value_of_le old pos len hin]
      have hel : entryLen k (some (sliceF old pos len)) = 8 + k.length + len := by
        rw [entryLen_some k _ (by rw [hvlen]; omega), hvlen]
      simp only [hel]
      rw [show f.length + (8 + k.length + len) - len = f.length + 8 + k.length by omega]
      rw [kdInsert_append_of_all_lt k (f.length + 8 + k.length, len) kd
        (fun p hp => hlt p hp _ (List.mem_cons_self ..))]
      rw [ih (f ++ encRecord k (some (sliceF old pos len))) (kd ++ [(k, (f.length + 8 + k.length, len))])
        (fun e he => hok e (List.mem_cons_of_mem _ he))
        (by
          intro p hp e he
          rw [List.mem_append] at hp
          rcases hp with hp | hp
          · exact hlt p hp e (List.mem_cons_of_mem _ he)
          · rw [List.mem_singleton] at hp
            subst hp
            exact hsort.1 e he)
        hsort.2]
      rw [show (f ++ encRecord k (some (sliceF old pos len))).length =
          f.length + 8 + k.length + len from by
          simp only [List.length_append, encRecord_length_some, hvlen]; omega]
      rw [show mergedFile old ((k, pos, len) :: rest) =
          encRecord k (some (sliceF old pos len)) ++ mergedFile old rest from rfl]
      rw [show mergedDir old f.length ((k, pos, len) :: rest) =
          (k, (f.length + 8 + k.length, len)) ::
            mergedDir old (f.length + 8 + k.length + len) rest from rfl]
      rw [List.append_assoc, List.append_assoc]
      rfl

theorem merge_spec (s : Store) (g : Bytes) (hW : Wf s) :
    merge s g = some { file := g ++ mergedFile s.file s.keydir,
                       keydir := mergedDir s.file g.length s.keydir } := by
  unfold merge
  rw [mergeLoop_spec s.file s.keydir g [] (fun e he => hW.2 e he) (by simp) hW.1]
  rfl

theorem merged_lookup_get (old : Bytes) (entries : List (Bytes × Nat × Nat)) :
    ∀ (pre : Bytes) (k : Bytes),
    (∀ e ∈ entries, e.2.1 + e.2.2 ≤ old.length ∧ 8 + e.1.length + e.2.2 < 4294967296) →
    get ⟨pre ++ mergedFile old entries, mergedDir old pre.length entries⟩ k =
    get ⟨old, entries⟩ k := by
  induction entries with
  | nil => intro pre k _; rfl
  | cons e rest ih =>
      intro pre k hok
      obtain ⟨k', pos, len⟩ := e
      have hin : pos + len ≤ old.length := (hok _ (List.mem_cons_self ..)).1
      have hsz : 8 + k'.length + len < 4294967296 := (hok _ (List.mem_cons_self ..)).2
      have hvlen : (sliceF old pos len).length = len := sliceF_length_of_le _ _ _ hin
      rw [show mergedFile old ((k', pos, len) :: rest) =
        encRecord k' (some (sliceF old pos len)) ++ mergedFile old rest from rfl]
      rw [show mergedDir old pre.length ((k', pos, len) :: rest) =
        (k', (pre.length + 8 + k'.length, len)) ::
          mergedDir old (pre.length + 8 + k'.length + len) rest from rfl]
      by_cases hk : k = k'
      · subst hk
        unfold get
        simp only [kdLookup, eq_self_iff_true, if_true]
        rw [read_value_merged_head pre (mergedFile old rest) k (sliceF old pos len) len hvlen,
          read_value_of_le old pos len hin]
      · have hpos : pre.length + 8 + k'.length + len =
            (pre ++ encRecord k' (some (sliceF old pos len))).length := by
          simp only [List.length_append, encRecord_length_some, hvlen]
          omega
        have hrec := ih (pre ++ encRecord k' (some (sliceF old pos len))) k
          (fun e he => hok e (List.mem_cons_of_mem _ he))
        unfold get at hrec ⊢
        simp only [kdLookup] at hrec ⊢
        rw [if_neg hk, if_neg hk, hpos, ← List.append_assoc]
        exact hrec

theorem mergedDir_keys (old : Bytes) (entries : List (Bytes × Nat × Nat)) :
    ∀ pos, (mergedDir old pos entries).map Prod.fst = entries.map Prod.fst := by
  induction entries with
  | nil => intro pos; rfl
  | cons e rest ih =>
      intro pos
      obtain ⟨k, p, l⟩ := e
      simp only [mergedDir, List.map_cons, ih]

theorem mergedDir_sorted (old : Bytes) (entries : List (Bytes × Nat × Nat))
    (hs : List.Pairwise (fun p q => lexLt p.1 q.1 = true) entries) :
    ∀ pos, List.Pairwise (fun p q => lexLt p.1 q.1 = true) (mergedDir old pos entries) := by
  induction entries with
  | nil => intro pos; simp [mergedDir]
  | cons e rest ih =>
      intro pos
      obtain ⟨k, p, l⟩ := e
      rw [List.pairwise_cons] at hs
      rw [show mergedDir old pos ((k, p, l) :: rest) =
        (k, (pos + 8 + k.length, l)) :: mergedDir old (pos + 8 + k.length + l) rest from rfl,
        List.pairwise_cons]
      refine ⟨?_, ih hs.2 _⟩
      intro q hq
      have hqk : q.1 ∈ (mergedDir old (pos + 8 + k.length + l) rest).map Prod.fst :=
        List.mem_map_of_mem Prod.fst hq
      rw [mergedDir_keys] at hqk
      rw [List.mem_map] at hqk
      obtain ⟨e', he', heq⟩ := hqk
      rw [show ((k, (pos + 8 + k.length, l)) : Bytes × Nat × Nat).1 = k from rfl, ← heq]
      exact hs.1 e' he'

theorem mergedDir_entryOk (old : Bytes) (entries : List (Bytes × Nat × Nat)) :
    ∀ (pre : Bytes),
    (∀ e ∈ entries, e.2.1 + e.2.2 ≤ old.length ∧ 8 + e.1.length + e.2.2 < 4294967296) →
    ∀ p ∈ mergedDir old pre.length entries,
      p.2.1 + p.2.2 ≤ (pre ++ mergedFile old entries).length ∧
      8 + p.1.length + p.2.2 < 4294967296 := by
  induction entries with
  | nil => intro pre _ p hp; simp [mergedDir] at hp
  | cons e rest ih =>
      intro pre hok p hp
      obtain ⟨k, pos, len⟩ := e
      have hin : pos + len ≤ old.length := (hok _ (List.mem_cons_self ..)).1
      have hsz : 8 + k.length + len < 4294967296 := (hok _ (List.mem_cons_self ..)).2
      have hvlen : (sliceF old pos len).length = len := sliceF_length_of_le _ _ _ hin
      have hfile : pre ++ mergedFile old ((k, pos, len) :: rest) =
          (pre ++ encRecord k (some (sliceF old pos len))) ++ mergedFile old rest := by
        rw [show mergedFile old ((k, pos, len) :: rest) =
          encRecord k (some (sliceF old pos len)) ++ mergedFile old rest from rfl,
          List.append_assoc]
      have hpos : pre.length + 8 + k.length + len =
          (pre ++ encRecord k (some (sliceF old pos len))).length := by
        simp only [List.length_append, encRecord_length_some, hvlen]
        omega
      rw [show mergedDir old pre.length ((k, pos, len) :: rest) =
        (k, (pre.length + 8 + k.length, len)) ::
          mergedDir old (pre.length + 8 + k.length + len) rest from rfl,
        List.mem_cons] at hp
      rcases hp with hp | hp
      · subst hp
        refine ⟨?_, by simpa using hsz⟩
        show pre.length + 8 + k.length + len ≤
          (pre ++ mergedFile old ((k, pos, len) :: rest)).length
        rw [hfile, List.length_append, ← hpos]
        omega
      · rw [hpos] at hp
        have := ih (pre ++ encRecord k (some (sliceF old pos len)))
          (fun e he => hok e (List.mem_cons_of_mem _ he)) p hp
        rw [hfile]
        exact this

theorem mergedFile_pairs (old : Bytes) (entries : List (Bytes × Nat × Nat)) :
    ∀ (pre : Bytes),
    (∀ e ∈ entries, e.2.1 + e.2.2 ≤ old.length ∧ 8 + e.1.length + e.2.2 < 4294967296) →
    (mergedDir old pre.length entries).map
      (fun p => (p.1, sliceF (pre ++ mergedFile old entries) p.2.1 p.2.2)) =
    entries.map (fun e => (e.1, sliceF old e.2.1 e.2.2)) := by
  induction entries with
  | nil => intro pre _; rfl
  | cons e rest ih =>
      intro pre hok
      obtain ⟨k, pos, len⟩ := e
      have hin : pos + len ≤ old.length := (hok _ (List.mem_cons_self ..)).1
      have hvlen : (sliceF old pos len).length = len := sliceF_length_of_le _ _ _ hin
      have hfile : pre ++ mergedFile old ((k, pos, len) :: rest) =
          (pre ++ encRecord k (some (sliceF old pos len))) ++ mergedFile old rest := by
        rw [show mergedFile old ((k, pos, len) :: rest) =
          encRecord k (some (sliceF old pos len)) ++ mergedFile old rest from rfl,
          List.append_assoc]
      have hpos : pre.length + 8 + k.length + len =
          (pre ++ encRecord k (some (sliceF old pos len))).length := by
        simp only [List.length_append, encRecord_length_some, hvlen]
        omega
      rw [show mergedDir old pre.length ((k, pos, len) :: rest) =
        (k, (pre.length + 8 + k.length, len)) ::
          mergedDir old (pre.length + 8 + k.length + len) rest from rfl,
        List.map_cons, List.map_cons]
      congr 1
      · rw [show pre ++ mergedFile old ((k, pos, len) :: rest) =
          pre ++ (encRecord k (some (sliceF old pos len)) ++ mergedFile old rest) from by
          rw [hfile, List.append_assoc]]
        rw [show ((k, (pre.length + 8 + k.length, len)) : Bytes × Nat × Nat).2.1 =
          pre.length + 8 + k.length from rfl]
        rw [sliceF_merged_head pre (mergedFile old rest) k (sliceF old pos len) len hvlen]
      · rw [hpos, hfile]
        exact ih (pre ++ encRecord k (some (sliceF old pos len)))
          (fun e he => hok e (List.mem_cons_of_mem _ he))

theorem mergedFile_eq_pairs (old : Bytes) (entries : List (Bytes × Nat × Nat)) :
    mergedFile old entries =
      ((entries.map (fun e => (e.1, sliceF old e.2.1 e.2.2))).map
        (fun q => encRecord q.1 (some q.2))).flatten := by
  induction entries with
  | nil => rfl
  | cons e rest ih =>
      obtain ⟨k, p, l⟩ := e
      simp only [mergedFile, List.map_cons, List.flatten_cons, ih]

theorem mergedFile_length (old : Bytes) (entries : List (Bytes × Nat × Nat)) :
    (mergedFile old entries).length =
      (entries.map (fun e => 8 + e.1.length + (sliceF old e.2.1 e.2.2).length)).sum := by
  induction entries with
  | nil => rfl
  | cons e rest ih =>
      obtain ⟨k, p, l⟩ := e
      simp only [mergedFile, List.length_append, encRecord_length_some, ih,
        List.map_cons, List.sum_cons]

/-- C6: merge preserves reads and is idempotent.  On any store
satisfying the Bitcask invariant, with no stale sibling file at the
merge path (`merge s []`), a merge succeeds; `get(K)` afterwards equals
`get(K)` before for every key K; and an immediately following second
merge succeeds and produces a byte-identical data file (renamed to the
same path). -/
theorem merge_preserves_and_idem (s : Store) (hW : Wf s) :
    ∃ s1 s2, merge s [] = some s1 ∧ merge s1 [] = some s2 ∧
      (∀ k, get s1 k = get s k) ∧ s2.file = s1.file := by
  have hok : ∀ e ∈ s.keydir,
      e.2.1 + e.2.2 ≤ s.file.length ∧ 8 + e.1.length + e.2.2 < 4294967296 :=
    fun e he => hW.2 e he
  have h1 : merge s [] =
      some ⟨mergedFile s.file s.keydir, mergedDir s.file 0 s.keydir⟩ := by
    rw [merge_spec s [] hW]
    rfl
  set s1 : Store := ⟨mergedFile s.file s.keydir, mergedDir s.file 0 s.keydir⟩ with hs1
  have hW1 : Wf s1 := by
    constructor
    · exact mergedDir_sorted s.file s.keydir hW.1 0
    · intro p hp
      have := mergedDir_entryOk s.file s.keydir [] hok p (by simpa using hp)
      simpa using this
  have hpairs : s1.keydir.map (fun p => (p.1, sliceF s1.file p.2.1 p.2.2)) =
      s.keydir.map (fun e => (e.1, sliceF s.file e.2.1 e.2.2)) := by
    have := mergedFile_pairs s.file s.keydir [] hok
    simpa using this
  have h2 : merge s1 [] =
      some ⟨mergedFile s1.file s1.keydir, mergedDir s1.file 0 s1.keydir⟩ := by
    rw [merge_spec s1 [] hW1]
    rfl
  refine ⟨s1, _, h1, h2, ?_, ?_⟩
  · intro k
    have := merged_lookup_get s.file s.keydir [] k hok
    simpa using this
  · show mergedFile s1.file s1.keydir = s1.file
    rw [mergedFile_eq_pairs s1.file s1.keydir, hpairs, ← mergedFile_eq_pairs]

theorem merge_preserves_and_idem_witness :
    ∃ s1 s2, merge (run [Op.set [97] [1], Op.set [98] [2], Op.del [97]]) [] = some s1 ∧
      merge s1 [] = some s2 ∧
      (∀ k, get s1 k = get (run [Op.set [97] [1], Op.set [98] [2], Op.del [97]]) k) ∧
      s2.file = s1.file :=
  merge_preserves_and_idem (run [Op.set [97] [1], Op.set [98] [2], Op.del [97]])
    (by decide)

/-- C7 counterexample: with a 1-byte garbage sibling file left at the
merge path, merging a store whose single live key is `[97]` with value
`[1]` produces a data file of 11 bytes, not the claimed
`8 + |K| + |V| = 10`: `Log::new` opens the sibling without truncating
it, so the garbage byte survives in front of the merged records. -/
theorem merge_garbage_cex :
    (merge (run [Op.set [97] [1]]) [0]).map (fun t => t.file.length) = some 11 ∧
    (11 : Nat) ≠ 8 + 1 + 1 := by
  decide

/-- C7 (amended): after a successful `merge()`, the data file's size
equals the size of whatever garbage sibling file pre-existed at the
merge path plus the sum over all live keys K of `8 + |K| + |V|` (V the
current value of K); with no (or an empty) sibling it is exactly that
sum. -/
theorem merge_file_size (s : Store) (g : Bytes) (hW : Wf s) :
    ∃ s1, merge s g = some s1 ∧
      s1.file.length =
        g.length + ((livePairs s).map (fun q => 8 + q.1.length + q.2.length)).sum := by
  refine ⟨_, merge_spec s g hW, ?_⟩
  show (g ++ mergedFile s.file s.keydir).length = _
  rw [List.length_append, mergedFile_length]
  congr 1
  rw [livePairs, List.map_map]
  rfl

theorem merge_file_size_witness :
    ∃ s1, merge (run [Op.set [97] [1, 2, 3], Op.set [98] [4]]) [] = some s1 ∧
      s1.file.length = ([] : Bytes).length +
        ((livePairs (run [Op.set [97] [1, 2, 3], Op.set [98] [4]])).map
          (fun q => 8 + q.1.length + q.2.length)).sum :=
  merge_file_size (run [Op.set [97] [1, 2, 3], Op.set [98] [4]]) [] (by decide)

end Bitcask
